import Mathlib

/-!
Shallow embedding of the blog visual-identity utilities
(accent-color hashing and palette selection, hex color math,
initials and headline-word derivation) together with proofs of
the specified properties.

JavaScript numbers appearing in the color math are modelled as
rationals; the 32-bit signed wraparound of the string hash is
modelled explicitly on the integers.  JavaScript strings are
modelled as Lean strings, with UTF-16 code units recovered
explicitly where character codes matter.
-/

/-- Source helper clamp: min of (max of value and lo) and hi. -/
def clamp {α : Type} [LinearOrder α] (value lo hi : α) : α :=
  min (max value lo) hi

/-- Math.round semantics on rationals: floor of x + 1/2. -/
def jsRound (q : ℚ) : ℤ :=
  Int.floor (q + 1 / 2)

/-- Reduce an integer modulo 2^32 into the signed 32-bit range;
this is the effect of the bitwise or-with-zero in the source hash. -/
def toSigned32 (n : ℤ) : ℤ :=
  let m := n % 4294967296
  if m < 2147483648 then m else m - 4294967296

/-- One step of the source hash loop: hash shifted left five bits
(a 32-bit operation), minus hash, plus the code unit, truncated to
signed 32 bits. -/
def hashStep (hash : ℤ) (code : ℕ) : ℤ :=
  toSigned32 (toSigned32 (hash * 32) - hash + code)

/-- UTF-16 code units of one character, as charCodeAt sees them. -/
def utf16CodeUnits (c : Char) : List ℕ :=
  let n := c.toNat
  if n < 65536 then [n]
  else [55296 + (n - 65536) / 1024, 56320 + (n - 65536) % 1024]

/-- All UTF-16 code units of a string. -/
def codeUnits (s : String) : List ℕ :=
  s.data.flatMap utf16CodeUnits

/-- Source hashString: fold the hash step over the code units
starting from zero, then take the absolute value. -/
def hashString (s : String) : ℕ :=
  ((codeUnits s).foldl hashStep 0).natAbs

/-- Modelled from the spec words for comparison: iteratively combine
each code unit via hash times 31 plus code with 32-bit signed
wraparound, then take the absolute value. -/
def hashStringSpec (s : String) : ℕ :=
  ((codeUnits s).foldl (fun (h : ℤ) (c : ℕ) => toSigned32 (h * 31 + c)) 0).natAbs

/-- The fixed ten-entry accent palette from the source. -/
def accentPalette : List String :=
  ["#f97316", "#6366f1", "#ec4899", "#10b981", "#facc15",
   "#0ea5e9", "#c084fc", "#fb7185", "#14b8a6", "#fbbf24"]

/-- Hex digit test matching the character class of the source regex. -/
def isHexDigit (c : Char) : Bool :=
  decide ((48 ≤ c.toNat ∧ c.toNat ≤ 57) ∨
          (97 ≤ c.toNat ∧ c.toNat ≤ 102) ∨
          (65 ≤ c.toNat ∧ c.toNat ≤ 70))

/-- The source hexColorRegex: a hash sign followed by exactly three
or six hex digits. -/
def isHexColor (s : String) : Bool :=
  match s.data with
  | '#' :: ds => (ds.length == 3 || ds.length == 6) && ds.all isHexDigit
  | _ => false

/-- Value of a hex digit, as parseInt with radix 16 reads it. -/
def hexDigitVal (c : Char) : ℕ :=
  if 48 ≤ c.toNat ∧ c.toNat ≤ 57 then c.toNat - 48
  else if 97 ≤ c.toNat ∧ c.toNat ≤ 102 then c.toNat - 87
  else if 65 ≤ c.toNat ∧ c.toNat ≤ 70 then c.toNat - 55
  else 0

/-- Transient RGB triple; channels are JavaScript numbers, modelled
as rationals. -/
structure RGB where
  r : ℚ
  g : ℚ
  b : ℚ
  deriving DecidableEq, Repr

/-- Source hexToRgb: reject strings failing the hex pattern, expand
three-digit forms by doubling each digit, parse as base 16 and
extract the three channels by shifting and masking. -/
def hexToRgb (hex : String) : Option RGB :=
  if isHexColor hex then
    let normalized := hex.data.drop 1
    let normalized :=
      if normalized.length == 3 then normalized.flatMap (fun c => [c, c])
      else normalized
    let intValue := normalized.foldl (fun acc c => acc * 16 + hexDigitVal c) 0
    some ⟨(((intValue >>> 16) &&& 255 : ℕ) : ℚ),
          (((intValue >>> 8) &&& 255 : ℕ) : ℚ),
          ((intValue &&& 255 : ℕ) : ℚ)⟩
  else none

/-- Lowercase hex digit for a value below sixteen. -/
def toHexDigit (n : ℕ) : Char :=
  if n < 10 then Char.ofNat (48 + n) else Char.ofNat (87 + n)

/-- Source componentToHex: round, clamp to the byte range, format in
base 16 and left-pad to two digits. -/
def componentToHex (component : ℚ) : String :=
  let clamped := (clamp (jsRound component) 0 255).toNat
  if clamped < 16 then String.mk ['0', toHexDigit clamped]
  else String.mk [toHexDigit (clamped / 16), toHexDigit (clamped % 16)]

/-- Source rgbToHex: hash sign followed by the three components. -/
def rgbToHex (rgb : RGB) : String :=
  "#" ++ componentToHex rgb.r ++ componentToHex rgb.g ++ componentToHex rgb.b

/-- Source mixHexColors: clamp the weight into the unit interval,
parse both colors, interpolate per channel, and fall back to the
first argument when either parse fails. -/
def mixHexColors (color mixWith : String) (weight : ℚ) : String :=
  let ratio := clamp weight 0 1
  match hexToRgb color, hexToRgb mixWith with
  | some rgbBase, some rgbMix =>
      rgbToHex ⟨rgbBase.r * (1 - ratio) + rgbMix.r * ratio,
                rgbBase.g * (1 - ratio) + rgbMix.g * ratio,
                rgbBase.b * (1 - ratio) + rgbMix.b * ratio⟩
  | _, _ => color

/-- Decimal rendering of a rational that is integral, matching how
JavaScript prints integral numbers; non-integral values keep the
Lean rational rendering (only integral values reach it here for
channels, and the alpha rendering is not part of any claim). -/
def ratStr (q : ℚ) : String :=
  if q.den = 1 then toString q.num else toString q

/-- Source hexToRgba: parse the color, return it unchanged on
failure, otherwise format the rgba string with the alpha clamped
into the unit interval. -/
def hexToRgba (color : String) (alpha : ℚ) : String :=
  match hexToRgb color with
  | none => color
  | some rgb =>
      let clampedAlpha := clamp alpha 0 1
      "rgba(" ++ ratStr rgb.r ++ ", " ++ ratStr rgb.g ++ ", " ++
        ratStr rgb.b ++ ", " ++ ratStr clampedAlpha ++ ")"

/-- Source toLinear inside getLuminance: normalize the channel and
apply the WCAG gamma correction. -/
noncomputable def toLinear (channel : ℚ) : ℝ :=
  let normalized : ℝ := (channel : ℝ) / 255
  if normalized ≤ 0.03928 then normalized / 12.92
  else ((normalized + 0.055) / 1.055) ^ (2.4 : ℝ)

/-- Source getLuminance: neutral midpoint on parse failure,
otherwise the WCAG weighted sum of the linearized channels. -/
noncomputable def getLuminance (hex : String) : ℝ :=
  match hexToRgb hex with
  | none => 0.5
  | some rgb =>
      0.2126 * toLinear rgb.r + 0.7152 * toLinear rgb.g +
        0.0722 * toLinear rgb.b

open Classical in
/-- Source getReadableTextColor: near-black over light backgrounds,
near-white otherwise. -/
noncomputable def getReadableTextColor (background : String) : String :=
  if getLuminance background > 0.5 then "#0f172a" else "#f8fafc"

/-- Truthiness of the optional string fields: present and non-empty. -/
def strTruthy (o : Option String) : Bool :=
  match o with
  | some s => s != ""
  | none => false

/-- The palette index the source derives from the hash and the
probing position. -/
def paletteIndexOf (key : String) (position : ℕ) : ℕ :=
  (hashString key % accentPalette.length + position) % accentPalette.length

/-- Source getAccentColor: a truthy preferred string matching the
hex pattern wins; otherwise index the palette by the hash of the
key offset by the position. -/
def getAccentColor (preferred : Option String) (key : String) (position : ℕ) : String :=
  if strTruthy preferred && isHexColor (preferred.getD "") then preferred.getD ""
  else accentPalette.getD (paletteIndexOf key position) ""

/-- Number of palette entries. -/
def paletteSize : ℕ := accentPalette.length

/-- Adding a color to the used set (sets ignore duplicates). -/
def addUsed (color : String) (used : List String) : List String :=
  if used.contains color then used else color :: used

/-- Body of the probing loop of pickAccentColor, with the numeric
bound of the loop guard made structural: the fuel argument counts
how many offsets below paletteSize minus one remain, so fuel zero
is exactly the guard conjunct offset < paletteSize - 1 failing. -/
def pickGo (used : List String) (title : String) (offset : ℕ) (accent : String) : ℕ → String
  | 0 => accent
  | fuel + 1 =>
      if used.contains accent then
        pickGo used title (offset + 1) (getAccentColor none title (offset + 1)) fuel
      else accent

/-- The probing loop of pickAccentColor: while the current accent is
already used and the offset is below paletteSize minus one, advance
the offset and rederive the accent. -/
def pickLoop (used : List String) (title : String) (offset : ℕ) (accent : String) : String :=
  pickGo used title offset accent (paletteSize - 1 - offset)

/-- Source pickAccentColor: derive the accent at offset zero; when
the frontmatter accent field is truthy accept it unconditionally,
otherwise probe for an unused color; record the result in the used
set and return both. -/
def pickAccentColor (used : List String) (accentColor : Option String) (title : String) :
    String × List String :=
  let accent := getAccentColor accentColor title 0
  if strTruthy accentColor then (accent, addUsed accent used)
  else
    let final := pickLoop used title 0 accent
    (final, addUsed final used)

/-- Sequential rendering pass over a list of items, each given by an
optional explicit accent and a title, threading the used set as the
page does. -/
def runPicks (items : List (Option String × String)) : List String × List String :=
  items.foldl
    (fun acc item =>
      let r := pickAccentColor acc.2 item.1 item.2
      (acc.1 ++ [r.1], r.2))
    ([], [])

/-- charAt as a string result: one-character string inside the
bounds, empty string outside. -/
def charAt (s : String) (i : ℕ) : String :=
  match s.data.drop i with
  | [] => ""
  | c :: _ => String.mk [c]

/-- String.prototype.trim modelled on the character list. -/
def jsTrim (s : String) : String :=
  String.mk ((s.data.dropWhile Char.isWhitespace).rdropWhile Char.isWhitespace)

/-- Splitting a character list at every delimiter character; runs of
delimiters yield empty pieces, which every caller filters away, so
this models the run-collapsing regex splits of the source. -/
def splitList (p : Char → Bool) : List Char → List (List Char)
  | [] => [[]]
  | c :: rest =>
      if p c then [] :: splitList p rest
      else
        match splitList p rest with
        | [] => [[c]]
        | w :: ws => (c :: w) :: ws

/-- Whitespace-split words of a string with empty pieces dropped, as
split on whitespace runs followed by the Boolean filter. -/
def jsWords (s : String) : List String :=
  ((splitList Char.isWhitespace s.data).map String.mk).filter (fun w => w != "")

/-- toUpperCase modelled characterwise. -/
def jsToUpper (s : String) : String :=
  String.mk (s.data.map Char.toUpper)

/-- Source getInitials: trim, fall back to TEN when empty, split
into words; a single word contributes its first two characters with
a one-character word doubled, several words contribute their first
characters; uppercase the result. -/
def getInitials (value : String) : String :=
  let trimmed := jsTrim value
  if trimmed = "" then "TEN"
  else
    let words := jsWords trimmed
    if words.length == 1 then
      let firstWord := words.getD 0 ""
      let first := charAt firstWord 0
      let second := if charAt firstWord 1 != "" then charAt firstWord 1 else charAt firstWord 0
      jsToUpper (first ++ second)
    else
      jsToUpper (charAt (words.getD 0 "") 0 ++ charAt (words.getD 1 "") 0)

/-- The accent-words override is a string or an array of strings. -/
def overrideTruthy (o : Option (String ⊕ List String)) : Bool :=
  match o with
  | none => false
  | some (Sum.inl s) => s != ""
  | some (Sum.inr _) => true

/-- Delimiters of the accent-words split: pipe, comma, newline. -/
def accentDelim (c : Char) : Bool :=
  c == '|' || c == ',' || c == '\n'

/-- Dash variants the single-word title split uses: hyphen, en dash,
em dash. -/
def dashDelim (c : Char) : Bool :=
  c == '-' || c == '–' || c == '—'

/-- Source parseAccentWords: empty for a falsy override, otherwise
take the array as is or split the string on delimiter runs, then
trim each piece and drop the empty ones. -/
def parseAccentWords (override : Option (String ⊕ List String)) : List String :=
  if !overrideTruthy override then []
  else
    let toWords : List String :=
      match override with
      | some (Sum.inr arr) => arr
      | some (Sum.inl s) => (splitList accentDelim s.data).map String.mk
      | none => []
    (toWords.map jsTrim).filter (fun w => w != "")

/-- Source getPrimaryWords: a non-empty parsed override wins;
otherwise fall back on an empty title, split a single word on dash
variants when that yields at least two parts, and take the first
two words of a multi-word title. -/
def getPrimaryWords (value : String) (override : Option (String ⊕ List String)) :
    String × String :=
  let parsedOverride := parseAccentWords override
  if parsedOverride.length > 0 then
    (parsedOverride.getD 0 "", parsedOverride.getD 1 "")
  else
    let trimmed := jsTrim value
    if trimmed = "" then ("TEN", "Blog")
    else
      let words := jsWords trimmed
      if words.length == 1 then
        let single := words.getD 0 ""
        let parts := ((splitList dashDelim single.data).map String.mk).filter (fun w => w != "")
        if parts.length ≥ 2 then (parts.getD 0 "", parts.getD 1 "")
        else (single, "")
      else (words.getD 0 "", words.getD 1 "")

/-! ### Hashing lemmas -/

theorem toSigned32_emod (n : ℤ) : toSigned32 n % 4294967296 = n % 4294967296 := by
  unfold toSigned32
  dsimp only
  split <;> omega

theorem toSigned32_congr {a b : ℤ} (h : a % 4294967296 = b % 4294967296) :
    toSigned32 a = toSigned32 b := by
  unfold toSigned32
  rw [h]

theorem hashStep_eq_spec (h : ℤ) (c : ℕ) : hashStep h c = toSigned32 (h * 31 + c) := by
  unfold hashStep
  apply toSigned32_congr
  have h1 := toSigned32_emod (h * 32)
  omega

theorem foldl_hashStep_eq_spec (l : List ℕ) (h : ℤ) :
    l.foldl hashStep h = l.foldl (fun (a : ℤ) (c : ℕ) => toSigned32 (a * 31 + c)) h := by
  induction l generalizing h with
  | nil => rfl
  | cons c t ih => simp only [List.foldl_cons, hashStep_eq_spec, ih]

/-- C2: hashString equals the absolute value of the fold
hash := hash * 31 + code over the code units of the string, with
32-bit signed wraparound; it is a natural number, hence
non-negative, and being a pure function of its input it is
deterministic across calls. -/
theorem hashString_eq_spec (s : String) : hashString s = hashStringSpec s := by
  unfold hashString hashStringSpec
  rw [foldl_hashStep_eq_spec]

/-! ### Palette selection lemmas -/

theorem paletteIndexOf_lt (key : String) (position : ℕ) :
    paletteIndexOf key position < accentPalette.length := by
  unfold paletteIndexOf
  have h : accentPalette.length = 10 := rfl
  rw [h]
  omega

theorem getD_mem_of_lt {l : List String} {i : ℕ} (h : i < l.length) (d : String) :
    l.getD i d ∈ l := by
  rw [List.getD_eq_getElem l d h]
  exact List.getElem_mem h

theorem getAccentColor_none_mem (key : String) (position : ℕ) :
    getAccentColor none key position ∈ accentPalette := by
  unfold getAccentColor strTruthy
  simp only [Bool.false_and, if_neg (Bool.false_ne_true)]
  exact getD_mem_of_lt (paletteIndexOf_lt key position) ""

/-- C1: a preferred string matching the hex pattern is returned
unchanged regardless of key and offset; otherwise getAccentColor
returns the palette entry at index hash of key modulo the palette
size plus the offset, modulo the palette size, which is always a
member of the ten-entry palette. -/
theorem getAccentColor_spec (pref key : String) (position : ℕ) :
    (isHexColor pref = true → getAccentColor (some pref) key position = pref) ∧
    (isHexColor pref = false →
      getAccentColor (some pref) key position =
        accentPalette.getD
          ((hashString key % accentPalette.length + position) % accentPalette.length) "" ∧
      getAccentColor (some pref) key position ∈ accentPalette) := by
  constructor
  · intro hhex
    have hne : pref ≠ "" := by
      intro he
      rw [he] at hhex
      exact absurd hhex (by decide)
    unfold getAccentColor
    rw [if_pos]
    · rfl
    · simp [strTruthy, hhex, hne]
  · intro hhex
    have hcond : (strTruthy (some pref) && isHexColor ((some pref).getD "")) = false := by
      simp [hhex]
    unfold getAccentColor
    rw [if_neg (by rw [hcond]; exact Bool.false_ne_true)]
    exact ⟨rfl, getD_mem_of_lt (paletteIndexOf_lt key position) ""⟩

theorem getAccentColor_spec_witness :
    getAccentColor (some "#aabbcc") "key" 3 = "#aabbcc" ∧
    (getAccentColor (some "nope") "a" 0 =
        accentPalette.getD
          ((hashString "a" % accentPalette.length + 0) % accentPalette.length) "" ∧
      getAccentColor (some "nope") "a" 0 ∈ accentPalette) :=
  ⟨(getAccentColor_spec "#aabbcc" "key" 3).1 (by decide),
   (getAccentColor_spec "nope" "a" 0).2 (by decide)⟩

/-- C10: a present, non-empty accentColor field that is not a valid
hex color bypasses collision avoidance: pickAccentColor returns the
hash-derived palette color for offset zero and records it in the
used set without probing, even when that color is already used, as
the concrete second conjunct shows (the used set already holds the
derived color for title a while all other palette entries are
free, yet the same color is returned again). -/
theorem pickAccentColor_invalid_explicit (used : List String) (title pref : String)
    (hne : pref ≠ "") (hinv : isHexColor pref = false) :
    pickAccentColor used (some pref) title =
      (accentPalette.getD (paletteIndexOf title 0) "",
       addUsed (accentPalette.getD (paletteIndexOf title 0) "") used) ∧
    pickAccentColor [getAccentColor none "a" 0] (some "not-a-color") "a" =
      (getAccentColor none "a" 0, [getAccentColor none "a" 0]) := by
  constructor
  · have haccent : getAccentColor (some pref) title 0 =
        accentPalette.getD (paletteIndexOf title 0) "" := by
      unfold getAccentColor
      rw [if_neg (by simp [hinv])]
    unfold pickAccentColor
    rw [if_pos (by simp [strTruthy, hne]), haccent]
  · decide

theorem pickAccentColor_invalid_explicit_witness :
    pickAccentColor [] (some "x") "t" =
      (accentPalette.getD (paletteIndexOf "t" 0) "",
       addUsed (accentPalette.getD (paletteIndexOf "t" 0) "") []) ∧
    pickAccentColor [getAccentColor none "a" 0] (some "not-a-color") "a" =
      (getAccentColor none "a" 0, [getAccentColor none "a" 0]) :=
  pickAccentColor_invalid_explicit [] "t" "x" (by decide) (by decide)

theorem pickGo_mem (used : List String) (title : String) :
    ∀ (fuel offset : ℕ) (accent : String), accent ∈ accentPalette →
      pickGo used title offset accent fuel ∈ accentPalette := by
  intro fuel
  induction fuel with
  | zero => intro offset accent hacc; exact hacc
  | succ n ih =>
      intro offset accent hacc
      unfold pickGo
      by_cases h : used.contains accent
      · rw [if_pos h]
        exact ih (offset + 1) _ (getAccentColor_none_mem title (offset + 1))
      · rw [if_neg h]
        exact hacc

/-- C3: the probing loop of pickAccentColor is total (its guard
bound paletteSize minus one is the structural fuel of pickGo, so it
stops after at most nine probes) and for an item without an
explicit color it always returns a member of the palette; in the
concrete scenario of eleven sequential items without explicit
colors and a single shared title, where every hash-derived index
collides with the previously assigned colors, the eleventh item
still receives a palette color, which duplicates one of the
earlier ten. -/
theorem pickAccentColor_terminates (used : List String) (title : String) :
    (pickAccentColor used none title).1 ∈ accentPalette ∧
    (runPicks (List.replicate 11 ((none : Option String), "a"))).1.getD 10 "" ∈ accentPalette ∧
    (runPicks (List.replicate 11 ((none : Option String), "a"))).1.getD 10 ""
      ∈ (runPicks (List.replicate 11 ((none : Option String), "a"))).1.take 10 := by
  refine ⟨?_, by decide, by decide⟩
  unfold pickAccentColor
  rw [if_neg (by simp [strTruthy])]
  exact pickGo_mem used title _ 0 _ (getAccentColor_none_mem title 0)

/-! ### Error-handling lemmas for hex parsing -/

/-- C7: hex parsing never raises: every string failing the hex
pattern parses to none, concretely including not-a-color, and
hexToRgba passes the original color string through unchanged when
parsing fails; when parsing succeeds it formats the rgba string
with the alpha clamped into the unit interval, as the concrete
conjuncts with alpha two and minus one show. -/
theorem hexToRgb_graceful :
    (∀ s : String, isHexColor s = false → hexToRgb s = none) ∧
    hexToRgb "not-a-color" = none ∧
    (∀ (color : String) (alpha : ℚ), hexToRgb color = none →
        hexToRgba color alpha = color) ∧
    hexToRgba "not-a-color" (1 / 2 : ℚ) = "not-a-color" ∧
    hexToRgba "#000000" (2 : ℚ) = "rgba(0, 0, 0, 1)" ∧
    hexToRgba "#102030" (-1 : ℚ) = "rgba(16, 32, 48, 0)" := by
  refine ⟨?_, by decide, ?_, by decide, by decide, by decide⟩
  · intro s h
    unfold hexToRgb
    rw [if_neg (by rw [h]; exact Bool.false_ne_true)]
  · intro color alpha h
    unfold hexToRgba
    rw [h]

theorem hexToRgb_graceful_witness :
    hexToRgb "zzz" = none ∧ hexToRgba "zzz" (3 : ℚ) = "zzz" :=
  ⟨hexToRgb_graceful.1 "zzz" (by decide),
   hexToRgb_graceful.2.2.1 "zzz" 3 (hexToRgb_graceful.1 "zzz" (by decide))⟩

/-! ### Headline-word lemmas -/

theorem jsWords_empty : jsWords "" = [] := by decide

/-- C9: a non-empty parsed override supplies primary and secondary
directly (second element defaulting to the empty string); with no
override, a title whose trim is empty yields the fixed fallback
pair, a title with at least two whitespace words yields the first
two, and the concrete conjuncts check the dash split of a single
word and the empty-title fallback. -/
theorem getPrimaryWords_spec :
    (∀ (title : String) (ov : Option (String ⊕ List String)), parseAccentWords ov ≠ [] →
        getPrimaryWords title ov =
          ((parseAccentWords ov).getD 0 "", (parseAccentWords ov).getD 1 "")) ∧
    (∀ title : String, jsTrim title = "" → getPrimaryWords title none = ("TEN", "Blog")) ∧
    (∀ (title : String) (w0 w1 : String) (rest : List String),
        jsWords (jsTrim title) = w0 :: w1 :: rest →
        getPrimaryWords title none = (w0, w1)) ∧
    getPrimaryWords "Self-Driving" none = ("Self", "Driving") ∧
    getPrimaryWords "" none = ("TEN", "Blog") ∧
    getPrimaryWords "Hello World Again" none = ("Hello", "World") := by
  refine ⟨?_, ?_, ?_, by decide, by decide, by decide⟩
  · intro title ov h
    simp only [getPrimaryWords]
    rw [if_pos (List.length_pos.mpr h)]
  · intro title h
    have hover : parseAccentWords none = [] := rfl
    simp only [getPrimaryWords, hover]
    rw [if_neg (by simp), if_pos h]
  · intro title w0 w1 rest hw
    have hover : parseAccentWords none = [] := rfl
    have ht : jsTrim title ≠ "" := by
      intro he
      rw [he, jsWords_empty] at hw
      exact absurd hw (by simp)
    simp only [getPrimaryWords, hover]
    rw [if_neg (by simp), if_neg ht, hw]
    simp

theorem getPrimaryWords_spec_witness :
    getPrimaryWords "X" (some (Sum.inl "Alpha|Beta")) =
      ((parseAccentWords (some (Sum.inl "Alpha|Beta"))).getD 0 "",
       (parseAccentWords (some (Sum.inl "Alpha|Beta"))).getD 1 "") ∧
    getPrimaryWords "   " none = ("TEN", "Blog") ∧
    getPrimaryWords "One Two Three" none = ("One", "Two") :=
  ⟨getPrimaryWords_spec.1 "X" (some (Sum.inl "Alpha|Beta")) (by decide),
   getPrimaryWords_spec.2.1 "   " (by decide),
   getPrimaryWords_spec.2.2.1 "One Two Three" "One" "Two" ["Three"] (by decide)⟩

/-! ### Initials lemmas -/

theorem dropWhile_head_false (p : Char → Bool) :
    ∀ (l : List Char) (hd : Char) (u : List Char),
      l.dropWhile p = hd :: u → p hd = false := by
  intro l
  induction l with
  | nil => intro hd u h; exact absurd h (by simp)
  | cons a t ih =>
      intro hd u h
      rw [List.dropWhile_cons] at h
      by_cases hp : p a = true
      · rw [if_pos hp] at h
        exact ih hd u h
      · rw [if_neg hp] at h
        have ha : a = hd := by injection h with h1 h2
        rw [← ha]
        exact Bool.eq_false_iff.mpr hp

theorem mk_cons_ne_empty (c : Char) (w : List Char) : String.mk (c :: w) ≠ "" := by
  intro h
  have h2 : c :: w = ([] : List Char) := congrArg String.data h
  exact (List.cons_ne_nil c w) h2

theorem filter_ne_empty_sound {l : List String} {x : String}
    (h : x ∈ l.filter (fun w => w != "")) : x ≠ "" :=
  bne_iff_ne.mp (List.mem_filter.mp h).2

theorem splitList_ne_nil (p : Char → Bool) (l : List Char) : splitList p l ≠ [] := by
  induction l with
  | nil => simp [splitList]
  | cons c t ih =>
      unfold splitList
      by_cases h : p c = true
      · rw [if_pos h]
        simp
      · rw [if_neg h]
        cases hs : splitList p t with
        | nil => simp
        | cons w ws => simp

theorem jsWords_cons {c : Char} {l : List Char} (h : c.isWhitespace = false) :
    ∃ (w : List Char) (ws : List String),
      jsWords (String.mk (c :: l)) = String.mk (c :: w) :: ws ∧ ∀ x ∈ ws, x ≠ "" := by
  unfold jsWords
  have hdata : (String.mk (c :: l)).data = c :: l := rfl
  rw [hdata]
  cases hs : splitList Char.isWhitespace l with
  | nil => exact absurd hs (splitList_ne_nil _ _)
  | cons w ws =>
      have hsplit : splitList Char.isWhitespace (c :: l) = (c :: w) :: ws := by
        unfold splitList
        rw [if_neg (by simp [h]), hs]
      rw [hsplit]
      refine ⟨w, (ws.map String.mk).filter (fun w => w != ""), ?_, ?_⟩
      · rw [List.map_cons, List.filter_cons_of_pos]
        simp [bne_iff_ne, mk_cons_ne_empty c w]
      · intro x hx
        exact filter_ne_empty_sound hx

theorem jsTrim_head (s : String) (h : jsTrim s ≠ "") :
    ∃ (hd : Char) (tl : List Char),
      (jsTrim s).data = hd :: tl ∧ hd.isWhitespace = false := by
  have hne : (jsTrim s).data ≠ [] := by
    intro he
    exact h (String.ext he)
  cases hd' : (jsTrim s).data with
  | nil => exact absurd hd' hne
  | cons hd tl =>
      refine ⟨hd, tl, rfl, ?_⟩
      have hdata : (jsTrim s).data =
          (s.data.dropWhile Char.isWhitespace).rdropWhile Char.isWhitespace := rfl
      obtain ⟨t, ht⟩ :=
        List.rdropWhile_prefix Char.isWhitespace (s.data.dropWhile Char.isWhitespace)
      rw [← hdata, hd'] at ht
      rw [List.cons_append] at ht
      exact dropWhile_head_false Char.isWhitespace s.data hd (tl ++ t) ht.symm

theorem charAt_cases (s : String) (i : ℕ) :
    charAt s i = "" ∨ ∃ c, charAt s i = String.mk [c] := by
  unfold charAt
  cases h : s.data.drop i with
  | nil => exact Or.inl rfl
  | cons c u => exact Or.inr ⟨c, rfl⟩

theorem data_append (a b : String) : (a ++ b).data = a.data ++ b.data := by
  cases a
  cases b
  rfl

theorem getInitials_len2 (s : String) (h : jsTrim s ≠ "") : (getInitials s).length = 2 := by
  obtain ⟨hd, tl, hdata, hws⟩ := jsTrim_head s h
  have hmk : jsTrim s = String.mk (hd :: tl) := String.ext hdata
  obtain ⟨w, ws1, hwords, hall⟩ := jsWords_cons (l := tl) hws
  rw [← hmk] at hwords
  have hc0 : ∀ u : List Char, charAt (String.mk (hd :: u)) 0 = String.mk [hd] := fun u => rfl
  simp only [getInitials]
  rw [if_neg h, hwords]
  cases ws1 with
  | nil =>
      have hlen : ((String.mk (hd :: w) :: ([] : List String)).length == 1) = true := by simp
      rw [if_pos hlen]
      simp only [List.getD_cons_zero]
      rw [hc0 w]
      by_cases h1 : (charAt (String.mk (hd :: w)) 1 != "") = true
      · rw [if_pos h1]
        cases charAt_cases (String.mk (hd :: w)) 1 with
        | inl he =>
            rw [he] at h1
            exact absurd h1 (by simp)
        | inr hex =>
            obtain ⟨c2, hc2⟩ := hex
            rw [hc2]
            rfl
      · rw [if_neg h1]
        rfl
  | cons x rest =>
      rw [if_neg (by simp)]
      simp only [List.getD_cons_zero, List.getD_cons_succ]
      have hx : x ≠ "" := hall x (by simp)
      obtain ⟨cx, ux, hxdata⟩ : ∃ c u, x.data = c :: u := by
        cases hxd : x.data with
        | nil => exact absurd (String.ext hxd) hx
        | cons c u => exact ⟨c, u, rfl⟩
      have hcx : charAt x 0 = String.mk [cx] := by
        simp [charAt, hxdata]
      rw [hc0 w, hcx]
      rfl

/-- C8: getInitials trims its input and splits it on whitespace; an
input whose trim is empty yields the fixed fallback TEN, and every
other input yields a two-character string; concretely the empty
string gives TEN, a one-character word is doubled, and a two-word
name contributes the uppercased initials of its first two words. -/
theorem getInitials_spec :
    getInitials "" = "TEN" ∧ getInitials "A" = "AA" ∧ getInitials "Jane Doe" = "JD" ∧
    (∀ s : String, jsTrim s = "" → getInitials s = "TEN") ∧
    (∀ s : String, jsTrim s ≠ "" → (getInitials s).length = 2) := by
  refine ⟨by decide, by decide, by decide, ?_, fun s h => getInitials_len2 s h⟩
  intro s h
  simp only [getInitials]
  rw [if_pos h]

theorem getInitials_spec_witness :
    getInitials "   " = "TEN" ∧ (getInitials "Ada Lovelace King").length = 2 :=
  ⟨getInitials_spec.2.2.2.1 "   " (by decide),
   getInitials_spec.2.2.2.2 "Ada Lovelace King" (by decide)⟩

/-! ### Hex round-trip lemmas -/

theorem hexDigitVal_toHexDigit (n : ℕ) (h : n < 16) : hexDigitVal (toHexDigit n) = n := by
  interval_cases n <;> decide

theorem isHexDigit_toHexDigit (n : ℕ) (h : n < 16) : isHexDigit (toHexDigit n) = true := by
  interval_cases n <;> decide

theorem clampByte_le (q : ℚ) : (clamp (jsRound q) 0 255).toNat ≤ 255 := by
  have h1 : min (max (jsRound q) 0) 255 ≤ 255 := min_le_right _ _
  unfold clamp
  omega

theorem componentToHex_data (q : ℚ) :
    (componentToHex q).data =
      [toHexDigit ((clamp (jsRound q) 0 255).toNat / 16),
       toHexDigit ((clamp (jsRound q) 0 255).toNat % 16)] := by
  simp only [componentToHex]
  by_cases hn : (clamp (jsRound q) 0 255).toNat < 16
  · rw [if_pos hn, Nat.div_eq_of_lt hn, Nat.mod_eq_of_lt hn]
    have h0 : toHexDigit 0 = '0' := by decide
    rw [h0]
  · rw [if_neg hn]

theorem rgbToHex_eq_mk (x y z : ℚ) :
    rgbToHex ⟨x, y, z⟩ =
      String.mk ('#' ::
        [toHexDigit ((clamp (jsRound x) 0 255).toNat / 16),
         toHexDigit ((clamp (jsRound x) 0 255).toNat % 16),
         toHexDigit ((clamp (jsRound y) 0 255).toNat / 16),
         toHexDigit ((clamp (jsRound y) 0 255).toNat % 16),
         toHexDigit ((clamp (jsRound z) 0 255).toNat / 16),
         toHexDigit ((clamp (jsRound z) 0 255).toNat % 16)]) := by
  apply String.ext
  show ("#" ++ componentToHex x ++ componentToHex y ++ componentToHex z).data = _
  rw [data_append, data_append, data_append, componentToHex_data, componentToHex_data,
    componentToHex_data]
  rfl

theorem isHexColor_mk_hash (ds : List Char) :
    isHexColor (String.mk ('#' :: ds)) =
      ((ds.length == 3 || ds.length == 6) && ds.all isHexDigit) := rfl

theorem hexToRgb_of_bytes (nx ny nz : ℕ) (hx : nx ≤ 255) (hy : ny ≤ 255) (hz : nz ≤ 255) :
    hexToRgb (String.mk ('#' ::
        [toHexDigit (nx / 16), toHexDigit (nx % 16),
         toHexDigit (ny / 16), toHexDigit (ny % 16),
         toHexDigit (nz / 16), toHexDigit (nz % 16)])) =
      some ⟨(nx : ℚ), (ny : ℚ), (nz : ℚ)⟩ := by
  have hhex : isHexColor (String.mk ('#' ::
      [toHexDigit (nx / 16), toHexDigit (nx % 16),
       toHexDigit (ny / 16), toHexDigit (ny % 16),
       toHexDigit (nz / 16), toHexDigit (nz % 16)])) = true := by
    rw [isHexColor_mk_hash]
    simp only [List.length_cons, List.length_nil, List.all_cons, List.all_nil,
      isHexDigit_toHexDigit (nx / 16) (by omega),
      isHexDigit_toHexDigit (nx % 16) (by omega),
      isHexDigit_toHexDigit (ny / 16) (by omega),
      isHexDigit_toHexDigit (ny % 16) (by omega),
      isHexDigit_toHexDigit (nz / 16) (by omega),
      isHexDigit_toHexDigit (nz % 16) (by omega)]
    rfl
  simp only [hexToRgb]
  rw [if_pos hhex]
  simp only [List.length_cons, List.length_nil, List.drop]
  rw [if_neg (by decide)]
  simp only [List.foldl_cons, List.foldl_nil,
    hexDigitVal_toHexDigit (nx / 16) (by omega),
    hexDigitVal_toHexDigit (nx % 16) (by omega),
    hexDigitVal_toHexDigit (ny / 16) (by omega),
    hexDigitVal_toHexDigit (ny % 16) (by omega),
    hexDigitVal_toHexDigit (nz / 16) (by omega),
    hexDigitVal_toHexDigit (nz % 16) (by omega)]
  have hval : (((((0 * 16 + nx / 16) * 16 + nx % 16) * 16 + ny / 16) * 16 + ny % 16) * 16
      + nz / 16) * 16 + nz % 16 = nx * 65536 + ny * 256 + nz := by omega
  rw [hval]
  have hand : ∀ m : ℕ, m &&& 255 = m % 256 := fun m => by
    have := Nat.and_pow_two_sub_one_eq_mod m 8
    simpa using this
  have hs16 : (nx * 65536 + ny * 256 + nz) >>> 16 = (nx * 65536 + ny * 256 + nz) / 65536 := by
    rw [Nat.shiftRight_eq_div_pow]
  have hs8 : (nx * 65536 + ny * 256 + nz) >>> 8 = (nx * 65536 + ny * 256 + nz) / 256 := by
    rw [Nat.shiftRight_eq_div_pow]
  have e1 : ((nx * 65536 + ny * 256 + nz) >>> 16) &&& 255 = nx := by
    rw [hs16, hand]
    omega
  have e2 : ((nx * 65536 + ny * 256 + nz) >>> 8) &&& 255 = ny := by
    rw [hs8, hand]
    omega
  have e3 : (nx * 65536 + ny * 256 + nz) &&& 255 = nz := by
    rw [hand]
    omega
  rw [e1, e2, e3]

theorem hexToRgb_rgbToHex (x y z : ℚ) :
    hexToRgb (rgbToHex ⟨x, y, z⟩) =
      some ⟨(((clamp (jsRound x) 0 255).toNat : ℕ) : ℚ),
            (((clamp (jsRound y) 0 255).toNat : ℕ) : ℚ),
            (((clamp (jsRound z) 0 255).toNat : ℕ) : ℚ)⟩ := by
  rw [rgbToHex_eq_mk]
  exact hexToRgb_of_bytes _ _ _ (clampByte_le x) (clampByte_le y) (clampByte_le z)

/-- C5: the round-trip through the six-digit lowercase hex encoding
is the identity on RGB triples with integer channels in the byte
range. -/
theorem hexToRgb_rgbToHex_roundtrip (r g b : ℕ) (hr : r ≤ 255) (hg : g ≤ 255) (hb : b ≤ 255) :
    hexToRgb (rgbToHex ⟨(r : ℚ), (g : ℚ), (b : ℚ)⟩) = some ⟨(r : ℚ), (g : ℚ), (b : ℚ)⟩ := by
  have hround : ∀ n : ℕ, jsRound ((n : ℚ)) = (n : ℤ) := by
    intro n
    unfold jsRound
    rw [Int.floor_eq_iff]
    constructor
    · push_cast
      linarith
    · push_cast
      linarith
  have hclamp : ∀ n : ℕ, n ≤ 255 → (clamp ((n : ℤ)) 0 255).toNat = n := by
    intro n hn
    unfold clamp
    have h0 : (0 : ℤ) ≤ (n : ℤ) := by positivity
    have h255 : (n : ℤ) ≤ 255 := by exact_mod_cast hn
    rw [max_eq_left h0, min_eq_left h255]
    omega
  rw [hexToRgb_rgbToHex, hround r, hround g, hround b,
    hclamp r hr, hclamp g hg, hclamp b hb]

theorem hexToRgb_rgbToHex_roundtrip_witness :
    hexToRgb (rgbToHex ⟨((16 : ℕ) : ℚ), ((200 : ℕ) : ℚ), ((255 : ℕ) : ℚ)⟩) =
      some ⟨((16 : ℕ) : ℚ), ((200 : ℕ) : ℚ), ((255 : ℕ) : ℚ)⟩ :=
  hexToRgb_rgbToHex_roundtrip 16 200 255 (by decide) (by decide) (by decide)

/-- C6: mixHexColors interpolates each channel linearly with the
weight clamped into the unit interval, rounds each channel to the
nearest integer, clamps it to the byte range and formats it in
lowercase hex (visible through parsing the result back); with the
implementation's round-half-up rule the even midpoint wins, so
mixing black and white at one half gives the hex string with all
channels 128. -/
theorem mixHexColors_spec :
    (∀ (a b : String) (w : ℚ) (ra rb : RGB),
        hexToRgb a = some ra → hexToRgb b = some rb →
        hexToRgb (mixHexColors a b w) =
          some ⟨((clamp (jsRound (ra.r * (1 - clamp w 0 1) + rb.r * clamp w 0 1)) 0 255).toNat : ℚ),
                ((clamp (jsRound (ra.g * (1 - clamp w 0 1) + rb.g * clamp w 0 1)) 0 255).toNat : ℚ),
                ((clamp (jsRound (ra.b * (1 - clamp w 0 1) + rb.b * clamp w 0 1)) 0 255).toNat : ℚ)⟩) ∧
    mixHexColors "#000000" "#ffffff" (1 / 2 : ℚ) = "#808080" := by
  constructor
  · intro a b w ra rb ha hb
    simp only [mixHexColors]
    rw [ha, hb]
    exact hexToRgb_rgbToHex _ _ _
  · have hratio : clamp (1 / 2 : ℚ) 0 1 = 1 / 2 := by
      unfold clamp
      rw [max_eq_left (by norm_num), min_eq_left (by norm_num)]
    have hjr : jsRound (255 / 2 : ℚ) = 128 := by
      unfold jsRound
      rw [show (255 / 2 : ℚ) + 1 / 2 = ((128 : ℤ) : ℚ) by norm_num]
      exact Int.floor_intCast 128
    have hcomp : componentToHex (255 / 2 : ℚ) = String.mk ['8', '0'] := by
      simp only [componentToHex]
      rw [hjr]
      have hcl : (clamp (128 : ℤ) 0 255).toNat = 128 := by
        unfold clamp
        rw [max_eq_left (by norm_num), min_eq_left (by norm_num)]
        rfl
      rw [hcl]
      rw [if_neg (by omega)]
      rfl
    simp only [mixHexColors]
    rw [show hexToRgb "#000000" = some ⟨0, 0, 0⟩ from by decide,
      show hexToRgb "#ffffff" = some ⟨255, 255, 255⟩ from by decide]
    show rgbToHex ⟨0 * (1 - clamp (1 / 2) 0 1) + 255 * clamp (1 / 2) 0 1,
        0 * (1 - clamp (1 / 2) 0 1) + 255 * clamp (1 / 2) 0 1,
        0 * (1 - clamp (1 / 2) 0 1) + 255 * clamp (1 / 2) 0 1⟩ = "#808080"
    rw [hratio]
    rw [show (0 : ℚ) * (1 - 1 / 2) + 255 * (1 / 2) = 255 / 2 from by norm_num]
    apply String.ext
    show ("#" ++ componentToHex (255 / 2) ++ componentToHex (255 / 2) ++
        componentToHex (255 / 2)).data = _
    rw [data_append, data_append, data_append, hcomp]
    rfl

theorem mixHexColors_spec_witness :
    hexToRgb (mixHexColors "#000000" "#ffffff" (1 / 2 : ℚ)) =
      some ⟨((clamp (jsRound ((RGB.mk 0 0 0).r * (1 - clamp (1 / 2 : ℚ) 0 1) +
                (RGB.mk 255 255 255).r * clamp (1 / 2 : ℚ) 0 1)) 0 255).toNat : ℚ),
            ((clamp (jsRound ((RGB.mk 0 0 0).g * (1 - clamp (1 / 2 : ℚ) 0 1) +
                (RGB.mk 255 255 255).g * clamp (1 / 2 : ℚ) 0 1)) 0 255).toNat : ℚ),
            ((clamp (jsRound ((RGB.mk 0 0 0).b * (1 - clamp (1 / 2 : ℚ) 0 1) +
                (RGB.mk 255 255 255).b * clamp (1 / 2 : ℚ) 0 1)) 0 255).toNat : ℚ)⟩ :=
  mixHexColors_spec.1 "#000000" "#ffffff" (1 / 2) (RGB.mk 0 0 0) (RGB.mk 255 255 255)
    (by decide) (by decide)

/-! ### Luminance lemmas -/

theorem toLinear_zero : toLinear 0 = 0 := by
  simp only [toLinear]
  rw [if_pos (by norm_num)]
  norm_num

theorem toLinear_255 : toLinear 255 = 1 := by
  simp only [toLinear]
  rw [show (((255 : ℚ) : ℝ)) / 255 = 1 by norm_num]
  rw [if_neg (by norm_num)]
  rw [show ((1 : ℝ) + 0.055) / 1.055 = 1 by norm_num]
  exact Real.one_rpow _

theorem getLuminance_black : getLuminance "#000000" = 0 := by
  have h : hexToRgb "#000000" = some ⟨0, 0, 0⟩ := by decide
  unfold getLuminance
  rw [h]
  show 0.2126 * toLinear 0 + 0.7152 * toLinear 0 + 0.0722 * toLinear 0 = 0
  rw [toLinear_zero]
  ring

theorem getLuminance_white : getLuminance "#ffffff" = 1 := by
  have h : hexToRgb "#ffffff" = some ⟨255, 255, 255⟩ := by decide
  unfold getLuminance
  rw [h]
  show 0.2126 * toLinear 255 + 0.7152 * toLinear 255 + 0.0722 * toLinear 255 = 1
  rw [toLinear_255]
  norm_num

/-- C4: getReadableTextColor is a binary threshold on the WCAG
relative luminance: it returns the near-black color exactly when
the luminance exceeds one half and the near-white color otherwise;
black yields the near-white color and white the near-black one. -/
theorem getReadableTextColor_spec :
    getReadableTextColor "#000000" = "#f8fafc" ∧
    getReadableTextColor "#ffffff" = "#0f172a" ∧
    ∀ bg : String, (getReadableTextColor bg = "#0f172a" ↔ getLuminance bg > 0.5) := by
  have hiff : ∀ bg : String, getReadableTextColor bg = "#0f172a" ↔ getLuminance bg > 0.5 := by
    intro bg
    unfold getReadableTextColor
    by_cases h : getLuminance bg > 0.5
    · rw [if_pos h]
      simp [h]
    · rw [if_neg h]
      constructor
      · intro he
        exact absurd he (by decide)
      · intro hl
        exact absurd hl h
  refine ⟨?_, ?_, hiff⟩
  · unfold getReadableTextColor
    rw [getLuminance_black, if_neg (by norm_num)]
  · exact (hiff "#ffffff").mpr (by rw [getLuminance_white]; norm_num)
